import Mathlib

/-!
Shallow embedding of the stroke-to-symbol clustering engine
(`backend/app/services/clustering.py` together with the `Box` dataclass of
`backend/app/mcp_servers/perception/schemas.py`).

Conventions of the embedding:
* Python floats are modelled as exact rationals (`ℚ`).
* A raw point is a record whose coordinates may fail to parse as floats;
  a coordinate that `float(...)` would reject is `none`.
* `math.sqrt` only occurs in the code inside comparisons
  `sqrt s ≤ t`; that comparison is embedded exactly as
  `0 ≤ t ∧ s ≤ t * t` (valid because `s ≥ 0` at every call site and
  `sqrt` is monotone), keeping every definition executable.
* `float("inf")` (the endpoint distance of a stroke without parseable
  endpoints) is modelled by `Option ℚ` with `none` for infinity.
-/

namespace Clustering

/-- Model of one raw input point dictionary: the values behind the keys
`"x"` and `"y"`, already classified by whether `float(...)` accepts them
(`some q`) or raises (`none`).  The other fields (`t`, `pressure`) are never
read by the clustering code and are omitted. -/
structure Pt where
  px : Option ℚ
  py : Option ℚ
deriving DecidableEq

/-- Model of one raw stroke dictionary, keeping exactly the keys the
clustering engine reads: `points`, `startedAt`, `endedAt`, `sequenceIndex`.
`startedAt`/`endedAt` are `none` when absent; `sequenceIndex` is `none` when
absent and an integer otherwise (the spec declares it an integer). -/
structure Stroke where
  points : List Pt
  startedAt : Option ℚ
  endedAt : Option ℚ
  sequenceIndex : Option ℤ
deriving DecidableEq

instance : Inhabited Stroke := ⟨⟨[], none, none, none⟩⟩

/-- The `Box` dataclass of `perception/schemas.py`: axis-aligned rectangle,
`x`,`y` top-left corner, `w`,`h` extents. -/
structure Box where
  x : ℚ
  y : ℚ
  w : ℚ
  h : ℚ
deriving DecidableEq

instance : Inhabited Box := ⟨⟨0, 0, 0, 0⟩⟩

/-- `Box.right` property: `x + w`. -/
def Box.right (b : Box) : ℚ := b.x + b.w

/-- `Box.bottom` property: `y + h`. -/
def Box.bottom (b : Box) : ℚ := b.y + b.h

/-- `intersection_over_union`: rectangular intersection area over union
area, `0.0` when the union area is not positive. -/
def intersection_over_union (a b : Box) : ℚ :=
  let inter_left := max a.x b.x
  let inter_right := min a.right b.right
  let inter_top := max a.y b.y
  let inter_bottom := min a.bottom b.bottom
  let inter_w := max 0 (inter_right - inter_left)
  let inter_h := max 0 (inter_bottom - inter_top)
  let inter_area := inter_w * inter_h
  let area_a := a.w * a.h
  let area_b := b.w * b.h
  let union_area := area_a + area_b - inter_area
  if union_area ≤ 0 then 0 else inter_area / union_area

/-- The rectangle intersection area computed inside
`intersection_over_union` (named for stating the claims about it). -/
def inter_area (a b : Box) : ℚ :=
  max 0 (min a.right b.right - max a.x b.x) *
    max 0 (min a.bottom b.bottom - max a.y b.y)

/-- The union area computed inside `intersection_over_union`. -/
def union_area (a b : Box) : ℚ := a.w * a.h + b.w * b.h - inter_area a b

/-- Square of `rect_gap`: the code computes
`sqrt (x_gap² + y_gap²)` with `x_gap = max(0.0, b.x - a.right, a.x - b.right)`
and the analogous `y_gap`; only the square is needed because `rect_gap`
is used solely in comparisons against a threshold. -/
def rect_gap_sq (a b : Box) : ℚ :=
  let x_gap := max 0 (max (b.x - a.right) (a.x - b.right))
  let y_gap := max 0 (max (b.y - a.bottom) (a.y - b.bottom))
  x_gap * x_gap + y_gap * y_gap

/-- Exact embedding of the comparison `sqrt s ≤ t` for `s ≥ 0`:
true iff `t` is nonnegative and `s ≤ t²`. -/
def sqrtLe (s t : ℚ) : Bool := decide (0 ≤ t ∧ s ≤ t * t)

/-- `_stroke_endpoints`: the first and last point of a stroke, `none` if the
stroke has no points or any of the four coordinates fails to parse. -/
def stroke_endpoints (s : Stroke) : Option ((ℚ × ℚ) × (ℚ × ℚ)) :=
  match s.points with
  | [] => none
  | p0 :: rest =>
    let p1 := (p0 :: rest).getLast (by simp)
    match p0.px, p0.py, p1.px, p1.py with
    | some x0, some y0, some x1, some y1 => some ((x0, y0), (x1, y1))
    | _, _, _, _ => none

/-- Squared euclidean distance between two points. -/
def dist_sq (p q : ℚ × ℚ) : ℚ :=
  (p.1 - q.1) * (p.1 - q.1) + (p.2 - q.2) * (p.2 - q.2)

/-- Square of `endpoint_distance`: minimum over the four endpoint pairs,
`none` standing for the code's `float("inf")` when either stroke has no
parseable endpoints. -/
def endpoint_distance_sq (a b : Stroke) : Option ℚ :=
  match stroke_endpoints a, stroke_endpoints b with
  | some (a0, a1), some (b0, b1) =>
    some (min (min (min (dist_sq a0 b0) (dist_sq a0 b1)) (dist_sq a1 b0))
      (dist_sq a1 b1))
  | _, _ => none

/-- Embedding of the comparison `endpoint_distance a b ≤ t`: false when the
distance is infinite, otherwise the `sqrt`-comparison on the square. -/
def endpointLe (a b : Stroke) (t : ℚ) : Bool :=
  match endpoint_distance_sq a b with
  | none => false
  | some s => sqrtLe s t

/-- `_stroke_time_window`: the `(start, end)` window of a stroke, taken from
`startedAt`/`endedAt` with each one falling back to the other, and both
falling back to the supplied `fallback` when absent. -/
def stroke_time_window (s : Stroke) (fallback : ℚ) : ℚ × ℚ :=
  match s.startedAt, s.endedAt with
  | none, none => (fallback, fallback)
  | none, some e => (e, e)
  | some st, none => (st, st)
  | some st, some e => (st, e)

/-- `_time_gap_s`: `min (|aStart - bEnd|) (|bStart - aEnd|)`. -/
def time_gap_s (a b : ℚ × ℚ) : ℚ :=
  min |a.1 - b.2| |b.1 - a.2|

/-- The geometric acceptance condition of `should_merge_strokes`:
box gap within `gap_threshold`, or endpoint distance within
`endpoint_threshold`. -/
def geom_merge (a b : Stroke) (a_box b_box : Box)
    (gap_threshold endpoint_threshold : ℚ) : Bool :=
  sqrtLe (rect_gap_sq a_box b_box) gap_threshold ||
    endpointLe a b endpoint_threshold

/-- `should_merge_strokes`: sequence gate when both strokes carry a
`sequenceIndex`, temporal gate otherwise, then the geometric conditions. -/
def should_merge_strokes (a_stroke b_stroke : Stroke) (a_box b_box : Box)
    (gap_threshold endpoint_threshold time_window_s : ℚ) (seq_window : ℤ)
    (a_time b_time : ℚ × ℚ) : Bool :=
  match a_stroke.sequenceIndex, b_stroke.sequenceIndex with
  | some sa, some sb =>
    if seq_window < |sa - sb| then false
    else geom_merge a_stroke b_stroke a_box b_box gap_threshold
      endpoint_threshold
  | _, _ =>
    if time_window_s < time_gap_s a_time b_time then false
    else geom_merge a_stroke b_stroke a_box b_box gap_threshold
      endpoint_threshold

/-- Python's builtin `min` over a nonempty list (left fold from the first
element); the `[]` case is unreachable at every call site (Python would
raise `ValueError` there). -/
def listMin : List ℚ → ℚ
  | [] => 0
  | x :: xs => xs.foldl min x

/-- Python's builtin `max` over a nonempty list. -/
def listMax : List ℚ → ℚ
  | [] => 0
  | x :: xs => xs.foldl max x

/-- One iteration of the point loop of `stroke_to_box`: `float(p["x"])` is
evaluated and appended first, so a point whose `x` parses contributes to
`xs` even when its `y` then fails to parse; a point whose `x` fails is
skipped entirely. -/
def collect_point (acc : List ℚ × List ℚ) (p : Pt) : List ℚ × List ℚ :=
  match p.px with
  | none => acc
  | some x =>
    match p.py with
    | none => (acc.1 ++ [x], acc.2)
    | some y => (acc.1 ++ [x], acc.2 ++ [y])

/-- `stroke_to_box`: bounding box of a stroke's parseable coordinates, the
degenerate `{0,0,0,0}` when no points or no usable coordinates remain. -/
def stroke_to_box (s : Stroke) : Box :=
  match s.points with
  | [] => ⟨0, 0, 0, 0⟩
  | pts =>
    let acc := pts.foldl collect_point ([], [])
    if acc.1 = [] ∨ acc.2 = [] then ⟨0, 0, 0, 0⟩
    else
      let min_x := listMin acc.1
      let max_x := listMax acc.1
      let min_y := listMin acc.2
      let max_y := listMax acc.2
      ⟨min_x, min_y, max 0 (max_x - min_x), max 0 (max_y - min_y)⟩

/-- `merge_clusters`: tight union box of the boxes selected by `indices`
(`indices` is nonempty and in range at every call site). -/
def merge_clusters (boxes : List Box) (indices : List ℕ) : Box :=
  let xs := indices.map fun i => (boxes.getD i default).x
  let ys := indices.map fun i => (boxes.getD i default).y
  let rights := indices.map fun i => (boxes.getD i default).right
  let bottoms := indices.map fun i => (boxes.getD i default).bottom
  let x_min := listMin xs
  let y_min := listMin ys
  let x_max := listMax rights
  let y_max := listMax bottoms
  ⟨x_min, y_min, x_max - x_min, y_max - y_min⟩

/-- Stable insertion step of the sort modelling Python's stable
`sorted(range(n), key=...)`: `i` goes in front of the first entry whose key
is `≥ key i`, so among equal keys the earlier original index stays first. -/
def insertByKey (key : ℕ → ℚ) (i : ℕ) : List ℕ → List ℕ
  | [] => [i]
  | j :: rest =>
    if key i ≤ key j then i :: j :: rest else j :: insertByKey key i rest

/-- Stable sort by key, extensionally equal to Python's `sorted` (both are
stable sorts by the same key). -/
def sortByKey (key : ℕ → ℚ) : List ℕ → List ℕ
  | [] => []
  | i :: rest => insertByKey key i (sortByKey key rest)

/-- Append `v` to the adjacency list of node `i`. -/
def appendAt (adj : List (List ℕ)) (i v : ℕ) : List (List ℕ) :=
  adj.set i (adj.getD i [] ++ [v])

/-- The inner loop of the adjacency construction of `cluster_strokes`:
stroke `i` is compared against the later strokes `rest` (in traversal
order), breaking when a non-sequence-indexed stroke `i` falls more than
`time_window_s` behind the next start, or when the `checked` counter
exceeds `max_forward_neighbors`; each accepted pair adds both directed
entries. -/
def scanFrom (strokes : List Stroke) (boxes : List Box)
    (times : List (ℚ × ℚ))
    (gap_threshold endpoint_threshold time_window_s : ℚ) (seq_window : ℤ)
    (max_forward_neighbors : ℕ) (i : ℕ) :
    List ℕ → ℕ → List (List ℕ) → List (List ℕ)
  | [], _, adj => adj
  | j :: rest, checked, adj =>
    if time_window_s < (times.getD j (0, 0)).1 - (times.getD i (0, 0)).2 ∧
        (strokes.getD i default).sequenceIndex = none then adj
    else if max_forward_neighbors < checked + 1 then adj
    else
      let adj' :=
        if should_merge_strokes (strokes.getD i default)
            (strokes.getD j default) (boxes.getD i default)
            (boxes.getD j default) gap_threshold endpoint_threshold
            time_window_s seq_window (times.getD i (0, 0))
            (times.getD j (0, 0)) then
          appendAt (appendAt adj i j) j i
        else adj
      scanFrom strokes boxes times gap_threshold endpoint_threshold
        time_window_s seq_window max_forward_neighbors i rest
        (checked + 1) adj'

/-- The outer loop of the adjacency construction: each position of the
traversal order is scanned against the remainder of the order. -/
def buildAdjAux (strokes : List Stroke) (boxes : List Box)
    (times : List (ℚ × ℚ))
    (gap_threshold endpoint_threshold time_window_s : ℚ) (seq_window : ℤ)
    (max_forward_neighbors : ℕ) :
    List ℕ → List (List ℕ) → List (List ℕ)
  | [], adj => adj
  | i :: rest, adj =>
    buildAdjAux strokes boxes times gap_threshold endpoint_threshold
      time_window_s seq_window max_forward_neighbors rest
      (scanFrom strokes boxes times gap_threshold endpoint_threshold
        time_window_s seq_window max_forward_neighbors i rest 0 adj)

/-- One pass of `for nxt in adj[cur]`: every not-yet-visited neighbour is
marked visited and pushed (Python appends to the list end and pops from the
end; the head of our stack is that end, and pushing in neighbour order
leaves the last neighbour on top, exactly as in the source). -/
def pushAll : List ℕ → List ℕ → List Bool → List ℕ × List Bool
  | [], stack, visited => (stack, visited)
  | nxt :: rest, stack, visited =>
    if visited.getD nxt true then pushAll rest stack visited
    else pushAll rest (nxt :: stack) (visited.set nxt true)

/-- The `while stack:` loop of the component search.  `fuel` is an upper
bound on the number of iterations (the measure
`visited.count false + stack.length` drops by one per iteration), so with
sufficient fuel the second branch is unreachable and the function computes
exactly what the source loop computes. -/
def dfsLoop (adj : List (List ℕ)) :
    ℕ → List ℕ → List Bool → List ℕ → List ℕ × List Bool
  | _, [], visited, comp => (comp, visited)
  | 0, _ :: _, visited, comp => (comp, visited)
  | fuel + 1, cur :: rest, visited, comp =>
    let s := pushAll (adj.getD cur []) rest visited
    dfsLoop adj fuel s.1 s.2 (comp ++ [cur])

/-- One iteration of the outer component loop: skip a visited node,
otherwise mark it, run the stack loop seeded with `[i]` (`n + 1` fuel is
enough: the loop measure starts at most at `n`), and record the finished
component. -/
def compStep (adj : List (List ℕ)) (n : ℕ)
    (s : List (List ℕ) × List Bool) (i : ℕ) : List (List ℕ) × List Bool :=
  if s.2.getD i true then s
  else
    let r := dfsLoop adj (n + 1) [i] (s.2.set i true) []
    (s.1 ++ [r.1], r.2)

/-- The connected-component extraction of `cluster_strokes`: iterate `i`
over `0..n-1` starting from an all-false visited array and no clusters. -/
def components (adj : List (List ℕ)) (n : ℕ) : List (List ℕ) :=
  ((List.range n).foldl (compStep adj n) ([], List.replicate n false)).1

/-- `cluster_strokes`: the full pipeline — per-stroke boxes, time windows
(falling back to the stroke's index), stable sort by window start,
adjacency construction, connected components, and per-cluster union
boxes. -/
def cluster_strokes (strokes : List Stroke)
    (gap_threshold : ℚ := 2 / 100) (endpoint_threshold : ℚ := 3 / 100)
    (time_window_s : ℚ := 6 / 10) (seq_window : ℤ := 2)
    (max_forward_neighbors : ℕ := 25) :
    List (List ℕ) × List Box × List Box :=
  let n := strokes.length
  if n = 0 then ([], [], [])
  else
    let boxes := strokes.map stroke_to_box
    let times :=
      (List.range n).map fun i =>
        stroke_time_window (strokes.getD i default) (i : ℚ)
    let order := sortByKey (fun i => (times.getD i (0, 0)).1) (List.range n)
    let adj :=
      buildAdjAux strokes boxes times gap_threshold endpoint_threshold
        time_window_s seq_window max_forward_neighbors order
        (List.replicate n [])
    let clusters := components adj n
    let symbol_boxes := clusters.map (merge_clusters boxes)
    (clusters, symbol_boxes, boxes)

/-- Binary tight union of two boxes (the operation that `merge_clusters`
iterates): min of lefts/tops, max of rights/bottoms. -/
def boxUnion (a b : Box) : Box :=
  ⟨min a.x b.x, min a.y b.y,
    max a.right b.right - min a.x b.x,
    max a.bottom b.bottom - min a.y b.y⟩

/-- `1` while index `k` is still unvisited, `0` once it is visited (an
out-of-range index counts as visited); the bookkeeping quantity of the
component-search invariant. -/
def unvis (visited : List Bool) (k : ℕ) : ℕ :=
  if visited.getD k true then 0 else 1

/-- The `x` coordinates collected by `stroke_to_box`: every point whose
`x` parses contributes, whether or not its `y` parses. -/
def xsOf (pts : List Pt) : List ℚ := pts.filterMap fun p => p.px

/-- The `y` coordinates collected by `stroke_to_box`: a point contributes
its `y` only when its `x` parsed first and its `y` parses too. -/
def ysOf (pts : List Pt) : List ℚ :=
  pts.filterMap fun p =>
    match p.px, p.py with
    | some _, some y => some y
    | _, _ => none

/-- Modelled from the spec: the stroke-to-box conversion as the spec's
words describe it — "extract numeric `x`,`y` from every point that parses
successfully; any point that fails to parse as two floats is skipped", then
min/max over the surviving points.  (This is a spec-side definition used
only to compare against the source's `stroke_to_box`.) -/
def spec_stroke_to_box (s : Stroke) : Box :=
  let ps :=
    s.points.filterMap fun p =>
      match p.px, p.py with
      | some x, some y => some (x, y)
      | _, _ => none
  if ps = [] then ⟨0, 0, 0, 0⟩
  else
    ⟨listMin (ps.map Prod.fst), listMin (ps.map Prod.snd),
      listMax (ps.map Prod.fst) - listMin (ps.map Prod.fst),
      listMax (ps.map Prod.snd) - listMin (ps.map Prod.snd)⟩

/-- A point whose two coordinates both parse. -/
def mkPt (x y : ℚ) : Pt := ⟨some x, some y⟩

/-- Stroke A of the spec's example scenario: points `(0.10, 0.10)` and
`(0.12, 0.11)`, no `startedAt`/`endedAt`, no `sequenceIndex` (the point
timestamps `t` are not read by the clustering code and are not part of the
`Pt` model). -/
def strokeA : Stroke :=
  ⟨[mkPt (10 / 100) (10 / 100), mkPt (12 / 100) (11 / 100)],
    none, none, none⟩

/-- Stroke B of the spec's example scenario. -/
def strokeB : Stroke :=
  ⟨[mkPt (11 / 100) (12 / 100), mkPt (13 / 100) (10 / 100)],
    none, none, none⟩

/-- Stroke C of the spec's example scenario. -/
def strokeC : Stroke :=
  ⟨[mkPt (80 / 100) (80 / 100), mkPt (82 / 100) (81 / 100)],
    none, none, none⟩

/-- Stroke A of the example scenario with `startedAt`/`endedAt` equal to
its first/last point timestamps (0 and 0.05). -/
def strokeA2 : Stroke :=
  ⟨[mkPt (10 / 100) (10 / 100), mkPt (12 / 100) (11 / 100)],
    some 0, some (5 / 100), none⟩

/-- Stroke B of the example scenario with timestamps 0.1 and 0.15. -/
def strokeB2 : Stroke :=
  ⟨[mkPt (11 / 100) (12 / 100), mkPt (13 / 100) (10 / 100)],
    some (10 / 100), some (15 / 100), none⟩

/-- Stroke C of the example scenario with timestamps 5.0 and 5.05. -/
def strokeC2 : Stroke :=
  ⟨[mkPt (80 / 100) (80 / 100), mkPt (82 / 100) (81 / 100)],
    some 5, some (505 / 100), none⟩

/-- A one-point stroke at the origin with no timing metadata. -/
def originStroke : Stroke := ⟨[mkPt 0 0], none, none, none⟩

/-- A stroke whose first point parses only in `x` (its `y` is malformed)
followed by a fully parseable point at the origin. -/
def halfParsedStroke : Stroke :=
  ⟨[⟨some 10, none⟩, mkPt 0 0], none, none, none⟩

/-! Helper lemmas about the visited array. -/

theorem getD_lt_of_false {l : List Bool} {n : ℕ}
    (h : l.getD n true = false) : n < l.length := by
  by_contra hn
  push_neg at hn
  rw [List.getD_eq_default _ _ hn] at h
  simp at h

theorem getD_set_self (l : List Bool) (n : ℕ) (b d : Bool)
    (h : n < l.length) : (l.set n b).getD n d = b := by
  induction l generalizing n with
  | nil => simp at h
  | cons hd tl ih =>
    cases n with
    | zero => rfl
    | succ m => exact ih m (by simpa using h)

theorem getD_set_ne (l : List Bool) (n m : ℕ) (b d : Bool)
    (h : n ≠ m) : (l.set n b).getD m d = l.getD m d := by
  induction l generalizing n m with
  | nil => rfl
  | cons hd tl ih =>
    cases n with
    | zero =>
      cases m with
      | zero => exact absurd rfl h
      | succ k => rfl
    | succ n' =>
      cases m with
      | zero => rfl
      | succ k => exact ih n' k fun hc => h (by omega)

theorem count_false_set_true (l : List Bool) (n : ℕ)
    (h : l.getD n true = false) :
    (l.set n true).count false + 1 = l.count false := by
  induction l generalizing n with
  | nil => simp [List.getD] at h
  | cons hd tl ih =>
    cases n with
    | zero =>
      have hhd : hd = false := h
      subst hhd
      simp [List.count_cons]
    | succ m =>
      have := ih m h
      simp only [List.set, List.count_cons]
      omega

theorem getD_replicate_false (n k : ℕ) :
    (List.replicate n false).getD k true = if k < n then false else true := by
  induction n generalizing k with
  | zero => simp [List.getD]
  | succ m ih =>
    cases k with
    | zero => simp [List.replicate]
    | succ j =>
      simp only [List.replicate]
      have := ih j
      simpa [List.getD, Nat.succ_lt_succ_iff] using this

/-! Invariants of the neighbour push pass. -/

theorem pushAll_length (neigh : List ℕ) (stack : List ℕ)
    (visited : List Bool) :
    (pushAll neigh stack visited).2.length = visited.length := by
  induction neigh generalizing stack visited with
  | nil => rfl
  | cons nxt rest ih =>
    by_cases hv : visited.getD nxt true
    · simpa only [pushAll, hv, if_true] using ih stack visited
    · simp only [pushAll, hv, if_false, Bool.false_eq_true]
      rw [ih (nxt :: stack) (visited.set nxt true), List.length_set]

theorem pushAll_measure (neigh : List ℕ) (stack : List ℕ)
    (visited : List Bool) :
    (pushAll neigh stack visited).2.count false +
        (pushAll neigh stack visited).1.length ≤
      visited.count false + stack.length := by
  induction neigh generalizing stack visited with
  | nil => simp [pushAll]
  | cons nxt rest ih =>
    by_cases hv : visited.getD nxt true
    · simpa only [pushAll, hv, if_true] using ih stack visited
    · simp only [pushAll, hv, if_false, Bool.false_eq_true]
      have hcount := count_false_set_true visited nxt (by
        simpa using hv)
      have hrec := ih (nxt :: stack) (visited.set nxt true)
      simp only [List.length_cons] at hrec
      omega

theorem pushAll_key (neigh : List ℕ) (stack : List ℕ)
    (visited : List Bool) (k : ℕ) :
    (pushAll neigh stack visited).1.count k +
        unvis (pushAll neigh stack visited).2 k =
      stack.count k + unvis visited k := by
  induction neigh generalizing stack visited with
  | nil => simp [pushAll]
  | cons nxt rest ih =>
    by_cases hv : visited.getD nxt true
    · simpa only [pushAll, hv, if_true] using ih stack visited
    · simp only [pushAll, hv, if_false, Bool.false_eq_true]
      rw [ih (nxt :: stack) (visited.set nxt true)]
      have hvf : visited.getD nxt true = false := by simpa using hv
      by_cases hk : nxt = k
      · subst hk
        have hlt : nxt < visited.length := getD_lt_of_false hvf
        simp only [unvis, List.count_cons, getD_set_self _ _ _ _ hlt, hvf]
        simp
      · simp only [unvis, List.count_cons, getD_set_ne _ _ _ _ _ hk]
        simp [hk]

theorem pushAll_mono (neigh : List ℕ) (stack : List ℕ)
    (visited : List Bool) (j : ℕ) (h : visited.getD j true = true) :
    (pushAll neigh stack visited).2.getD j true = true := by
  induction neigh generalizing stack visited with
  | nil => exact h
  | cons nxt rest ih =>
    by_cases hv : visited.getD nxt true
    · simpa only [pushAll, hv, if_true] using ih stack visited h
    · simp only [pushAll, hv, if_false, Bool.false_eq_true]
      have hne : nxt ≠ j := by
        intro he
        rw [he] at hv
        exact hv h
      have hset : (visited.set nxt true).getD j true = true := by
        rw [getD_set_ne _ _ _ _ _ hne]; exact h
      exact ih (nxt :: stack) (visited.set nxt true) hset

/-! Invariants of the stack loop. -/

theorem dfsLoop_length (adj : List (List ℕ)) (fuel : ℕ) (stack : List ℕ)
    (visited : List Bool) (comp : List ℕ) :
    (dfsLoop adj fuel stack visited comp).2.length = visited.length := by
  induction fuel generalizing stack visited comp with
  | zero => cases stack <;> rfl
  | succ f ih =>
    cases stack with
    | nil => rfl
    | cons cur rest =>
      simp only [dfsLoop]
      rw [ih, pushAll_length]

theorem dfsLoop_mono (adj : List (List ℕ)) (fuel : ℕ) (stack : List ℕ)
    (visited : List Bool) (comp : List ℕ) (j : ℕ)
    (h : visited.getD j true = true) :
    (dfsLoop adj fuel stack visited comp).2.getD j true = true := by
  induction fuel generalizing stack visited comp with
  | zero => cases stack <;> exact h
  | succ f ih =>
    cases stack with
    | nil => exact h
    | cons cur rest =>
      simp only [dfsLoop]
      exact ih _ _ _ (pushAll_mono _ _ _ _ h)

theorem dfsLoop_key (adj : List (List ℕ)) (fuel : ℕ) (stack : List ℕ)
    (visited : List Bool) (comp : List ℕ) (k : ℕ)
    (h : visited.count false + stack.length ≤ fuel) :
    (dfsLoop adj fuel stack visited comp).1.count k +
        unvis (dfsLoop adj fuel stack visited comp).2 k =
      comp.count k + stack.count k + unvis visited k := by
  induction fuel generalizing stack visited comp with
  | zero =>
    cases stack with
    | nil => simp [dfsLoop]
    | cons cur rest => simp at h
  | succ f ih =>
    cases stack with
    | nil => simp [dfsLoop]
    | cons cur rest =>
      simp only [dfsLoop]
      have hm := pushAll_measure (adj.getD cur []) rest visited
      have hfuel :
          (pushAll (adj.getD cur []) rest visited).2.count false +
            (pushAll (adj.getD cur []) rest visited).1.length ≤ f := by
        simp only [List.length_cons] at h
        omega
      rw [ih _ _ _ hfuel]
      have hp := pushAll_key (adj.getD cur []) rest visited k
      by_cases hck : cur = k
      · simp only [List.count_append, List.count_cons, List.count_nil,
          hck, beq_self_eq_true, if_true] at hp ⊢
        omega
      · have hbeq : (cur == k) = false := by simp [hck]
        simp only [List.count_append, List.count_cons, List.count_nil,
          hbeq, if_false, Bool.false_eq_true] at hp ⊢
        omega

/-! Invariants of the outer component loop. -/

theorem compStep_length (adj : List (List ℕ)) (n : ℕ)
    (s : List (List ℕ) × List Bool) (i : ℕ) :
    (compStep adj n s i).2.length = s.2.length := by
  by_cases hv : s.2.getD i true
  · unfold compStep
    rw [if_pos hv]
  · unfold compStep
    rw [if_neg hv]
    rw [dfsLoop_length, List.length_set]

theorem foldl_compStep_length (adj : List (List ℕ)) (n : ℕ)
    (l : List ℕ) (s : List (List ℕ) × List Bool) :
    ((l.foldl (compStep adj n) s).2).length = s.2.length := by
  induction l generalizing s with
  | nil => rfl
  | cons i rest ih => rw [List.foldl_cons, ih, compStep_length]

theorem foldl_compStep_key (adj : List (List ℕ)) (n : ℕ)
    (l : List ℕ) (s : List (List ℕ) × List Bool) (k : ℕ)
    (hlen : s.2.length = n) :
    ((l.foldl (compStep adj n) s).1).flatten.count k +
        unvis ((l.foldl (compStep adj n) s).2) k =
      s.1.flatten.count k + unvis s.2 k := by
  induction l generalizing s with
  | nil => rfl
  | cons i rest ih =>
    rw [List.foldl_cons]
    by_cases hv : s.2.getD i true
    · have hstep : compStep adj n s i = s := by
        unfold compStep
        rw [if_pos hv]
      rw [hstep, ih _ hlen]
    · have hvf : s.2.getD i true = false := by simpa using hv
      have hlt : i < s.2.length := getD_lt_of_false hvf
      have hstep :
          compStep adj n s i =
            ((s.1 ++ [(dfsLoop adj (n + 1) [i] (s.2.set i true) []).1]),
              (dfsLoop adj (n + 1) [i] (s.2.set i true) []).2) := by
        unfold compStep
        rw [if_neg hv]
      rw [ih _ (by rw [compStep_length]; exact hlen)]
      rw [hstep]
      have hfuel : (s.2.set i true).count false + 1 ≤ n + 1 := by
        have h1 := count_false_set_true s.2 i hvf
        have h2 := List.count_le_length false s.2
        omega
      have hkey := dfsLoop_key adj (n + 1) [i] (s.2.set i true) [] k hfuel
      simp only [List.flatten_append, List.flatten_cons, List.flatten_nil,
        List.append_nil, List.count_append]
      by_cases hk : i = k
      · subst hk
        have hu1 : unvis (s.2.set i true) i = 0 := by
          unfold unvis
          rw [getD_set_self _ _ _ _ hlt]
          simp
        have hu2 : unvis s.2 i = 1 := by
          unfold unvis
          rw [hvf]
          simp
        have hcnt : List.count i [i] = 1 := by simp
        rw [hu1, List.count_nil, hcnt] at hkey
        rw [hu2]
        omega
      · have hu1 : unvis (s.2.set i true) k = unvis s.2 k := by
          unfold unvis
          rw [getD_set_ne _ _ _ _ _ hk]
        have hcnt : List.count k [i] = 0 := by
          simp [List.count_cons, hk]
        rw [hu1, List.count_nil, hcnt] at hkey
        omega

theorem foldl_compStep_mono (adj : List (List ℕ)) (n : ℕ)
    (l : List ℕ) (s : List (List ℕ) × List Bool) (j : ℕ)
    (h : s.2.getD j true = true) :
    ((l.foldl (compStep adj n) s).2).getD j true = true := by
  induction l generalizing s with
  | nil => exact h
  | cons i rest ih =>
    rw [List.foldl_cons]
    refine ih _ ?_
    by_cases hv : s.2.getD i true
    · have hstep : compStep adj n s i = s := by
        unfold compStep
        rw [if_pos hv]
      rw [hstep]
      exact h
    · have hvf : s.2.getD i true = false := by simpa using hv
      have hne : i ≠ j := by
        intro he
        rw [he, h] at hvf
        cases hvf
      unfold compStep
      rw [if_neg hv]
      exact dfsLoop_mono _ _ _ _ _ _
        (by rw [getD_set_ne _ _ _ _ _ hne]; exact h)

theorem foldl_compStep_visits (adj : List (List ℕ)) (n : ℕ)
    (l : List ℕ) (s : List (List ℕ) × List Bool) (j : ℕ) (hj : j ∈ l) :
    ((l.foldl (compStep adj n) s).2).getD j true = true := by
  induction l generalizing s with
  | nil => cases hj
  | cons i rest ih =>
    rw [List.foldl_cons]
    rcases List.mem_cons.mp hj with rfl | hmem
    · refine foldl_compStep_mono adj n rest _ j ?_
      by_cases hv : s.2.getD j true
      · have hstep : compStep adj n s j = s := by
          unfold compStep
          rw [if_pos hv]
        rw [hstep]
        exact hv
      · have hvf : s.2.getD j true = false := by simpa using hv
        have hlt : j < s.2.length := getD_lt_of_false hvf
        unfold compStep
        rw [if_neg hv]
        exact dfsLoop_mono _ _ _ _ _ _ (getD_set_self _ _ _ _ hlt)
    · exact ih _ hmem

/-- The connected components of any adjacency structure partition
`{0, …, n-1}`: the concatenation of the clusters is a permutation of
`range n`. -/
theorem components_flatten_perm (adj : List (List ℕ)) (n : ℕ) :
    (components adj n).flatten.Perm (List.range n) := by
  rw [List.perm_iff_count]
  intro k
  have hkey := foldl_compStep_key adj n (List.range n)
    ([], List.replicate n false) k (by simp)
  simp only [List.flatten_nil, List.count_nil] at hkey
  by_cases hk : k < n
  · have hrep : unvis (List.replicate n false) k = 1 := by
      simp [unvis, getD_replicate_false, hk]
    have hvis := foldl_compStep_visits adj n (List.range n)
      ([], List.replicate n false) k (List.mem_range.mpr hk)
    have hu : unvis ((List.range n).foldl (compStep adj n)
        ([], List.replicate n false)).2 k = 0 := by
      unfold unvis
      rw [hvis]
      simp
    have hcl : List.count k (components adj n).flatten = 1 := by
      simp only [components]
      rw [hrep, hu] at hkey
      omega
    rw [hcl]
    exact (List.count_eq_one_of_mem (List.nodup_range n)
      (List.mem_range.mpr hk)).symm
  · have hrep : unvis (List.replicate n false) k = 0 := by
      unfold unvis
      rw [getD_replicate_false]
      simp [hk]
    have hcl : List.count k (components adj n).flatten = 0 := by
      simp only [components]
      rw [hrep] at hkey
      omega
    rw [hcl]
    exact (List.count_eq_zero_of_not_mem fun hm =>
      hk (List.mem_range.mp hm)).symm

/-! Order theory of `listMin` / `listMax`. -/

theorem foldlMin_le_init (xs : List ℚ) (a : ℚ) : xs.foldl min a ≤ a := by
  induction xs generalizing a with
  | nil => exact le_refl a
  | cons x xs ih =>
    exact le_trans (ih (min a x)) (min_le_left a x)

theorem foldlMin_le_mem (xs : List ℚ) (a y : ℚ) (hy : y ∈ xs) :
    xs.foldl min a ≤ y := by
  induction xs generalizing a with
  | nil => cases hy
  | cons x xs ih =>
    rcases List.mem_cons.mp hy with rfl | hmem
    · exact le_trans (foldlMin_le_init xs (min a y)) (min_le_right a y)
    · exact ih (min a x) hmem

theorem foldlMin_choice (xs : List ℚ) (a : ℚ) :
    xs.foldl min a = a ∨ xs.foldl min a ∈ xs := by
  induction xs generalizing a with
  | nil => exact Or.inl rfl
  | cons x xs ih =>
    rcases ih (min a x) with h | h
    · rcases min_choice a x with hm | hm
      · rw [List.foldl_cons, h, hm]
        exact Or.inl rfl
      · rw [List.foldl_cons, h, hm]
        exact Or.inr (List.mem_cons_self x xs)
    · exact Or.inr (List.mem_cons_of_mem x h)

theorem listMin_le (l : List ℚ) (y : ℚ) (hy : y ∈ l) : listMin l ≤ y := by
  cases l with
  | nil => cases hy
  | cons x xs =>
    rcases List.mem_cons.mp hy with rfl | hmem
    · exact foldlMin_le_init xs y
    · exact foldlMin_le_mem xs x y hmem

theorem listMin_mem (l : List ℚ) (hl : l ≠ []) : listMin l ∈ l := by
  cases l with
  | nil => exact absurd rfl hl
  | cons x xs =>
    rcases foldlMin_choice xs x with h | h
    · rw [listMin, h]
      exact List.mem_cons_self x xs
    · exact List.mem_cons_of_mem x h

theorem foldlMax_ge_init (xs : List ℚ) (a : ℚ) : a ≤ xs.foldl max a := by
  induction xs generalizing a with
  | nil => exact le_refl a
  | cons x xs ih =>
    exact le_trans (le_max_left a x) (ih (max a x))

theorem foldlMax_ge_mem (xs : List ℚ) (a y : ℚ) (hy : y ∈ xs) :
    y ≤ xs.foldl max a := by
  induction xs generalizing a with
  | nil => cases hy
  | cons x xs ih =>
    rcases List.mem_cons.mp hy with rfl | hmem
    · exact le_trans (le_max_right a y) (foldlMax_ge_init xs (max a y))
    · exact ih (max a x) hmem

theorem foldlMax_choice (xs : List ℚ) (a : ℚ) :
    xs.foldl max a = a ∨ xs.foldl max a ∈ xs := by
  induction xs generalizing a with
  | nil => exact Or.inl rfl
  | cons x xs ih =>
    rcases ih (max a x) with h | h
    · rcases max_choice a x with hm | hm
      · rw [List.foldl_cons, h, hm]
        exact Or.inl rfl
      · rw [List.foldl_cons, h, hm]
        exact Or.inr (List.mem_cons_self x xs)
    · exact Or.inr (List.mem_cons_of_mem x h)

theorem listMax_ge (l : List ℚ) (y : ℚ) (hy : y ∈ l) : y ≤ listMax l := by
  cases l with
  | nil => cases hy
  | cons x xs =>
    rcases List.mem_cons.mp hy with rfl | hmem
    · exact foldlMax_ge_init xs y
    · exact foldlMax_ge_mem xs x y hmem

theorem listMax_mem (l : List ℚ) (hl : l ≠ []) : listMax l ∈ l := by
  cases l with
  | nil => exact absurd rfl hl
  | cons x xs =>
    rcases foldlMax_choice xs x with h | h
    · rw [listMax, h]
      exact List.mem_cons_self x xs
    · exact List.mem_cons_of_mem x h

theorem listMin_le_listMax (l : List ℚ) (hl : l ≠ []) :
    listMin l ≤ listMax l :=
  listMax_ge l (listMin l) (listMin_mem l hl)

theorem listMin_perm {l l' : List ℚ} (h : l.Perm l') :
    listMin l = listMin l' := by
  by_cases hl : l = []
  · subst hl
    rw [(List.Perm.nil_eq h).symm]
  · have hl' : l' ≠ [] := by
      intro he
      subst he
      exact hl (List.Perm.eq_nil h)
    refine le_antisymm ?_ ?_
    · exact listMin_le l _ ((List.Perm.mem_iff h).mpr (listMin_mem l' hl'))
    · exact listMin_le l' _ ((List.Perm.mem_iff h).mp (listMin_mem l hl))

theorem listMax_perm {l l' : List ℚ} (h : l.Perm l') :
    listMax l = listMax l' := by
  by_cases hl : l = []
  · subst hl
    rw [(List.Perm.nil_eq h).symm]
  · have hl' : l' ≠ [] := by
      intro he
      subst he
      exact hl (List.Perm.eq_nil h)
    refine le_antisymm ?_ ?_
    · exact listMax_ge l' _ ((List.Perm.mem_iff h).mp (listMax_mem l hl))
    · exact listMax_ge l _ ((List.Perm.mem_iff h).mpr (listMax_mem l' hl'))

theorem listMin_append (l l' : List ℚ) (hl : l ≠ []) (hl' : l' ≠ []) :
    listMin (l ++ l') = min (listMin l) (listMin l') := by
  have hne : l ++ l' ≠ [] := by
    intro he
    exact hl (List.append_eq_nil.mp he).1
  refine le_antisymm (le_min ?_ ?_) ?_
  · exact listMin_le _ _ (List.mem_append_left l' (listMin_mem l hl))
  · exact listMin_le _ _ (List.mem_append_right l (listMin_mem l' hl'))
  · rcases List.mem_append.mp (listMin_mem _ hne) with hm | hm
    · exact le_trans (min_le_left _ _) (listMin_le l _ hm)
    · exact le_trans (min_le_right _ _) (listMin_le l' _ hm)

theorem listMax_append (l l' : List ℚ) (hl : l ≠ []) (hl' : l' ≠ []) :
    listMax (l ++ l') = max (listMax l) (listMax l') := by
  have hne : l ++ l' ≠ [] := by
    intro he
    exact hl (List.append_eq_nil.mp he).1
  refine le_antisymm ?_ (max_le ?_ ?_)
  · rcases List.mem_append.mp (listMax_mem _ hne) with hm | hm
    · exact le_trans (listMax_ge l _ hm) (le_max_left _ _)
    · exact le_trans (listMax_ge l' _ hm) (le_max_right _ _)
  · exact listMax_ge _ _ (List.mem_append_left l' (listMax_mem l hl))
  · exact listMax_ge _ _ (List.mem_append_right l (listMax_mem l' hl'))

/-! Box union algebra. -/

theorem Box.eq_of_fields {a b : Box} (hx : a.x = b.x) (hy : a.y = b.y)
    (hr : a.right = b.right) (hb : a.bottom = b.bottom) : a = b := by
  cases a
  cases b
  simp only [Box.right, Box.bottom] at hx hy hr hb
  simp only [Box.mk.injEq] at *
  subst hx
  subst hy
  exact ⟨rfl, rfl, by linarith, by linarith⟩

theorem boxUnion_x (a b : Box) : (boxUnion a b).x = min a.x b.x := rfl

theorem boxUnion_y (a b : Box) : (boxUnion a b).y = min a.y b.y := rfl

theorem boxUnion_right (a b : Box) :
    (boxUnion a b).right = max a.right b.right := by
  simp only [boxUnion, Box.right]
  ring

theorem boxUnion_bottom (a b : Box) :
    (boxUnion a b).bottom = max a.bottom b.bottom := by
  simp only [boxUnion, Box.bottom]
  ring

theorem boxUnion_assoc (a b c : Box) :
    boxUnion (boxUnion a b) c = boxUnion a (boxUnion b c) := by
  refine Box.eq_of_fields ?_ ?_ ?_ ?_
  · simp only [boxUnion_x, min_assoc]
  · simp only [boxUnion_y, min_assoc]
  · simp only [boxUnion_right, max_assoc]
  · simp only [boxUnion_bottom, max_assoc]

theorem merge_clusters_x (boxes : List Box) (indices : List ℕ) :
    (merge_clusters boxes indices).x =
      listMin (indices.map fun i => (boxes.getD i default).x) := rfl

theorem merge_clusters_y (boxes : List Box) (indices : List ℕ) :
    (merge_clusters boxes indices).y =
      listMin (indices.map fun i => (boxes.getD i default).y) := rfl

theorem merge_clusters_right (boxes : List Box) (indices : List ℕ) :
    (merge_clusters boxes indices).right =
      listMax (indices.map fun i => (boxes.getD i default).right) := by
  simp only [merge_clusters, Box.right]
  ring

theorem merge_clusters_bottom (boxes : List Box) (indices : List ℕ) :
    (merge_clusters boxes indices).bottom =
      listMax (indices.map fun i => (boxes.getD i default).bottom) := by
  simp only [merge_clusters, Box.bottom]
  ring

theorem merge_clusters_perm (boxes : List Box) {is js : List ℕ}
    (h : is.Perm js) :
    merge_clusters boxes is = merge_clusters boxes js := by
  refine Box.eq_of_fields ?_ ?_ ?_ ?_
  · rw [merge_clusters_x, merge_clusters_x]
    exact listMin_perm (h.map _)
  · rw [merge_clusters_y, merge_clusters_y]
    exact listMin_perm (h.map _)
  · rw [merge_clusters_right, merge_clusters_right]
    exact listMax_perm (h.map _)
  · rw [merge_clusters_bottom, merge_clusters_bottom]
    exact listMax_perm (h.map _)

theorem merge_clusters_append (boxes : List Box) (is js : List ℕ)
    (hi : is ≠ []) (hj : js ≠ []) :
    merge_clusters boxes (is ++ js) =
      boxUnion (merge_clusters boxes is) (merge_clusters boxes js) := by
  have hmi : ∀ f : ℕ → ℚ, is.map f ≠ [] := fun f he =>
    hi (List.map_eq_nil_iff.mp he)
  have hmj : ∀ f : ℕ → ℚ, js.map f ≠ [] := fun f he =>
    hj (List.map_eq_nil_iff.mp he)
  refine Box.eq_of_fields ?_ ?_ ?_ ?_
  · rw [boxUnion_x, merge_clusters_x, merge_clusters_x, merge_clusters_x,
      List.map_append, listMin_append _ _ (hmi _) (hmj _)]
  · rw [boxUnion_y, merge_clusters_y, merge_clusters_y, merge_clusters_y,
      List.map_append, listMin_append _ _ (hmi _) (hmj _)]
  · rw [boxUnion_right, merge_clusters_right, merge_clusters_right,
      merge_clusters_right, List.map_append,
      listMax_append _ _ (hmi _) (hmj _)]
  · rw [boxUnion_bottom, merge_clusters_bottom, merge_clusters_bottom,
      merge_clusters_bottom, List.map_append,
      listMax_append _ _ (hmi _) (hmj _)]

/-! The point-collection pass of `stroke_to_box`. -/

theorem foldl_collect_point (pts : List Pt) (acc : List ℚ × List ℚ) :
    pts.foldl collect_point acc =
      (acc.1 ++ xsOf pts, acc.2 ++ ysOf pts) := by
  induction pts generalizing acc with
  | nil => simp [xsOf, ysOf]
  | cons p pts ih =>
    rw [List.foldl_cons, ih]
    rcases hx : p.px with _ | x
    · simp [collect_point, xsOf, ysOf, hx, List.filterMap_cons]
    · rcases hy : p.py with _ | y
      · simp [collect_point, xsOf, ysOf, hx, hy, List.filterMap_cons]
      · simp [collect_point, xsOf, ysOf, hx, hy, List.filterMap_cons]

theorem getD_map_lt {α β : Type} (f : α → β) (l : List α) (k : ℕ)
    (hk : k < l.length) (d : β) (d' : α) :
    (l.map f).getD k d = f (l.getD k d') := by
  induction l generalizing k with
  | nil => simp at hk
  | cons x xs ih =>
    cases k with
    | zero => rfl
    | succ m => exact ih m (by simpa using hk)

/-! Symmetry of the pairwise geometry. -/

theorem rect_gap_sq_comm (a b : Box) : rect_gap_sq a b = rect_gap_sq b a := by
  simp only [rect_gap_sq]
  rw [max_comm (b.x - a.right) (a.x - b.right),
    max_comm (b.y - a.bottom) (a.y - b.bottom)]

theorem dist_sq_comm (p q : ℚ × ℚ) : dist_sq p q = dist_sq q p := by
  simp only [dist_sq]
  ring

theorem endpoint_distance_sq_comm (a b : Stroke) :
    endpoint_distance_sq a b = endpoint_distance_sq b a := by
  unfold endpoint_distance_sq
  rcases ha : stroke_endpoints a with _ | ⟨a0, a1⟩ <;>
    rcases hb : stroke_endpoints b with _ | ⟨b0, b1⟩ <;> simp
  rw [dist_sq_comm b0 a0, dist_sq_comm b0 a1, dist_sq_comm b1 a0,
    dist_sq_comm b1 a1]
  rw [min_right_comm (dist_sq a0 b0) (dist_sq a1 b0) (dist_sq a0 b1)]

theorem geom_merge_comm (a b : Stroke) (a_box b_box : Box) (gt et : ℚ) :
    geom_merge a b a_box b_box gt et = geom_merge b a b_box a_box gt et := by
  unfold geom_merge endpointLe
  rw [rect_gap_sq_comm, endpoint_distance_sq_comm]

theorem time_gap_s_comm (a b : ℚ × ℚ) : time_gap_s a b = time_gap_s b a := by
  unfold time_gap_s
  rw [min_comm]

/-- The top-level shape of `intersection_over_union` in terms of the named
areas. -/
theorem iou_eq (a b : Box) :
    intersection_over_union a b =
      if union_area a b ≤ 0 then 0
      else inter_area a b / union_area a b := rfl

theorem inter_area_self (a : Box) :
    inter_area a a = max 0 a.w * max 0 a.h := by
  simp [inter_area, Box.right, Box.bottom, min_self, max_self,
    add_sub_cancel_left]

/-- The characterization of `stroke_to_box` by the collected coordinate
lists: every point whose `x` parses contributes to `xsOf`, a point
contributes to `ysOf` only when both coordinates parse, and the result is
the degenerate box when either list is empty. -/
theorem stroke_to_box_eq (s : Stroke) :
    stroke_to_box s =
      (if xsOf s.points = [] ∨ ysOf s.points = [] then ⟨0, 0, 0, 0⟩
       else
         ⟨listMin (xsOf s.points), listMin (ysOf s.points),
           listMax (xsOf s.points) - listMin (xsOf s.points),
           listMax (ysOf s.points) - listMin (ysOf s.points)⟩) := by
  rcases hp : s.points with _ | ⟨p, pts⟩
  · simp [stroke_to_box, hp, xsOf, ysOf]
  · have hfold := foldl_collect_point (p :: pts) ([], [])
    simp only [List.nil_append] at hfold
    by_cases hc : xsOf (p :: pts) = [] ∨ ysOf (p :: pts) = []
    · simp [stroke_to_box, hp, hfold, hc]
    · push_neg at hc
      have hx := hc.1
      have hy := hc.2
      have hwx : max 0 (listMax (xsOf (p :: pts)) - listMin (xsOf (p :: pts)))
          = listMax (xsOf (p :: pts)) - listMin (xsOf (p :: pts)) :=
        max_eq_right (sub_nonneg.mpr (listMin_le_listMax _ hx))
      have hwy : max 0 (listMax (ysOf (p :: pts)) - listMin (ysOf (p :: pts)))
          = listMax (ysOf (p :: pts)) - listMin (ysOf (p :: pts)) :=
        max_eq_right (sub_nonneg.mpr (listMin_le_listMax _ hy))
      simp [stroke_to_box, hp, hfold, hx, hy, hwx, hwy]

/-! The claims. -/

set_option maxHeartbeats 1000000 in
/-- C1 counterexample: on the example strokes exactly as the spec's
scenario gives them (no `startedAt`/`endedAt`, no `sequenceIndex`), the time
windows fall back to the stroke indices `(0,0)`, `(1,1)`, `(2,2)`; every
inter-stroke start gap is `1 > 0.6`, so with the default configuration
`cluster_strokes` builds no edges and returns three singleton clusters,
not the two clusters the claim expects. -/
theorem c1_counterexample :
    (cluster_strokes [strokeA, strokeB, strokeC]
        (2 / 100) (3 / 100) (6 / 10) 2 25).1 = [[0], [1], [2]] ∧
      ((cluster_strokes [strokeA, strokeB, strokeC]
        (2 / 100) (3 / 100) (6 / 10) 2 25).1).length ≠ 2 := by
  have h : (cluster_strokes [strokeA, strokeB, strokeC]
      (2 / 100) (3 / 100) (6 / 10) 2 25).1 = [[0], [1], [2]] := by
    norm_num [cluster_strokes, strokeA, strokeB, strokeC, mkPt,
      stroke_to_box, collect_point, listMin, listMax, stroke_time_window,
      sortByKey, insertByKey, buildAdjAux, scanFrom, should_merge_strokes,
      geom_merge, sqrtLe, rect_gap_sq, endpointLe, endpoint_distance_sq,
      stroke_endpoints, dist_sq, time_gap_s, components, compStep, dfsLoop,
      pushAll, appendAt, merge_clusters, Box.right, Box.bottom,
      List.range_succ, abs_eq_max_neg, le_max_iff, max_le_iff, lt_max_iff,
      max_lt_iff, le_min_iff, min_le_iff, lt_min_iff, min_lt_iff]
  refine ⟨h, ?_⟩
  rw [h]
  norm_num

set_option maxHeartbeats 1000000 in
/-- C1 (amended): for the three example strokes additionally carrying
`startedAt`/`endedAt` equal to their first/last point timestamps
(A: 0–0.05, B: 0.1–0.15, C: 5.0–5.05), `cluster_strokes` with the default
configuration returns exactly 2 clusters: one containing strokes A and B,
and a singleton containing stroke C. -/
theorem c1_example_scenario :
    (cluster_strokes [strokeA2, strokeB2, strokeC2]
        (2 / 100) (3 / 100) (6 / 10) 2 25).1 = [[0, 1], [2]] ∧
      ((cluster_strokes [strokeA2, strokeB2, strokeC2]
        (2 / 100) (3 / 100) (6 / 10) 2 25).1).length = 2 := by
  have h : (cluster_strokes [strokeA2, strokeB2, strokeC2]
      (2 / 100) (3 / 100) (6 / 10) 2 25).1 = [[0, 1], [2]] := by
    norm_num [cluster_strokes, strokeA2, strokeB2, strokeC2, mkPt,
      stroke_to_box, collect_point, listMin, listMax, stroke_time_window,
      sortByKey, insertByKey, buildAdjAux, scanFrom, should_merge_strokes,
      geom_merge, sqrtLe, rect_gap_sq, endpointLe, endpoint_distance_sq,
      stroke_endpoints, dist_sq, time_gap_s, components, compStep, dfsLoop,
      pushAll, appendAt, merge_clusters, Box.right, Box.bottom,
      List.range_succ, abs_eq_max_neg, le_max_iff, max_le_iff, lt_max_iff,
      max_lt_iff, le_min_iff, min_le_iff, lt_min_iff, min_lt_iff]
  refine ⟨h, ?_⟩
  rw [h]
  norm_num

/-- C2 counterexample: stroke `b`'s time window `(2,3)` lies inside stroke
`a`'s window `(0,10)`, so the minimum gap between the two windows is `0`
(third conjunct, computed as `max(0, bStart-aEnd, aStart-bEnd)`), and the
coincident degenerate boxes pass the geometric conditions (second
conjunct); the claim therefore says the pair must merge, yet
`should_merge_strokes` rejects it, because `_time_gap_s` computes
`min(|0-3|, |2-10|) = 3 > 0.6` rather than the window gap. -/
theorem c2_counterexample :
    should_merge_strokes originStroke originStroke ⟨0, 0, 0, 0⟩
        ⟨0, 0, 0, 0⟩ (2 / 100) (3 / 100) (6 / 10) 2 (0, 10) (2, 3)
        = false ∧
      geom_merge originStroke originStroke ⟨0, 0, 0, 0⟩ ⟨0, 0, 0, 0⟩
        (2 / 100) (3 / 100) = true ∧
      max 0 (max ((2 : ℚ) - 10) (0 - 3)) = 0 := by
  refine ⟨?_, ?_, by norm_num⟩ <;>
    norm_num [should_merge_strokes, originStroke, mkPt, geom_merge,
      sqrtLe, rect_gap_sq, endpointLe, endpoint_distance_sq,
      stroke_endpoints, dist_sq, time_gap_s, Box.right, Box.bottom]

/-- C2 (amended): for every pair of strokes where at least one lacks a
`sequenceIndex`, `should_merge_strokes` rejects the pair iff
`_time_gap_s = min(|aStart-bEnd|, |bStart-aEnd|)` exceeds
`time_window_s` or the geometric conditions fail; this quantity equals the
minimum gap between the `[startedAt, endedAt]` windows when the windows
are disjoint, but can be positive — and can reject — when the windows
overlap. -/
theorem c2_temporal_gate (a b : Stroke) (a_box b_box : Box)
    (gt et tw : ℚ) (sw : ℤ) (ta tb : ℚ × ℚ)
    (h : a.sequenceIndex = none ∨ b.sequenceIndex = none) :
    should_merge_strokes a b a_box b_box gt et tw sw ta tb = false ↔
      tw < time_gap_s ta tb ∨
        geom_merge a b a_box b_box gt et = false := by
  unfold should_merge_strokes
  cases hsa : a.sequenceIndex with
  | none =>
    cases hsb : b.sequenceIndex with
    | none => by_cases hg : tw < time_gap_s ta tb <;> simp [hg]
    | some sb => by_cases hg : tw < time_gap_s ta tb <;> simp [hg]
  | some sa =>
    cases hsb : b.sequenceIndex with
    | none => by_cases hg : tw < time_gap_s ta tb <;> simp [hg]
    | some sb =>
      exfalso
      rcases h with h | h
      · rw [hsa] at h
        cases h
      · rw [hsb] at h
        cases h

/-- C2 witness: the amended equivalence instantiated at the overlapping
windows counterexample input. -/
theorem c2_temporal_gate_witness :
    should_merge_strokes originStroke originStroke ⟨0, 0, 0, 0⟩
        ⟨0, 0, 0, 0⟩ (2 / 100) (3 / 100) (6 / 10) 2 (0, 10) (2, 3)
        = false ↔
      (6 : ℚ) / 10 < time_gap_s (0, 10) (2, 3) ∨
        geom_merge originStroke originStroke ⟨0, 0, 0, 0⟩ ⟨0, 0, 0, 0⟩
          (2 / 100) (3 / 100) = false :=
  c2_temporal_gate originStroke originStroke _ _ _ _ _ _ _ _
    (Or.inl rfl)

/-- C3: for every input stroke list and every configuration, the clusters
returned by `cluster_strokes` partition the full stroke index set — the
concatenation of the clusters is a permutation of `range n`, so every
index appears in exactly one cluster, with no duplicates and no
omissions. -/
theorem c3_partition (strokes : List Stroke) (gt et tw : ℚ) (sw : ℤ)
    (mfn : ℕ) :
    ((cluster_strokes strokes gt et tw sw mfn).1).flatten.Perm
      (List.range strokes.length) := by
  by_cases h0 : strokes.length = 0
  · have hs : strokes = [] := List.length_eq_zero.mp h0
    subst hs
    simp [cluster_strokes]
  · simp only [cluster_strokes, h0, if_false]
    exact components_flatten_perm _ _

/-- C4: every `symbolBox` returned by `cluster_strokes` is exactly
`merge_clusters` of its cluster's member `strokeBoxes`; `merge_clusters`
takes the minimum of member lefts/tops and the maximum of member
rights/bottoms; the union is associative (both as the binary `boxUnion`
and through `merge_clusters` over concatenation) and independent of member
order. -/
theorem c4_symbol_boxes :
    (∀ (strokes : List Stroke) (gt et tw : ℚ) (sw : ℤ) (mfn k : ℕ),
      k < ((cluster_strokes strokes gt et tw sw mfn).1).length →
      ((cluster_strokes strokes gt et tw sw mfn).2.1).getD k default =
        merge_clusters ((cluster_strokes strokes gt et tw sw mfn).2.2)
          (((cluster_strokes strokes gt et tw sw mfn).1).getD k [])) ∧
    (∀ (boxes : List Box) (indices : List ℕ),
      (merge_clusters boxes indices).x =
          listMin (indices.map fun i => (boxes.getD i default).x) ∧
        (merge_clusters boxes indices).y =
          listMin (indices.map fun i => (boxes.getD i default).y) ∧
        (merge_clusters boxes indices).right =
          listMax (indices.map fun i => (boxes.getD i default).right) ∧
        (merge_clusters boxes indices).bottom =
          listMax (indices.map fun i => (boxes.getD i default).bottom)) ∧
    (∀ (boxes : List Box) (is js : List ℕ), is.Perm js →
      merge_clusters boxes is = merge_clusters boxes js) ∧
    (∀ (boxes : List Box) (is js : List ℕ), is ≠ [] → js ≠ [] →
      merge_clusters boxes (is ++ js) =
        boxUnion (merge_clusters boxes is) (merge_clusters boxes js)) ∧
    (∀ a b c : Box,
      boxUnion (boxUnion a b) c = boxUnion a (boxUnion b c)) := by
  refine ⟨?_, ?_, ?_, ?_, ?_⟩
  · intro strokes gt et tw sw mfn k hk
    by_cases h0 : strokes.length = 0
    · have hs : strokes = [] := List.length_eq_zero.mp h0
      subst hs
      simp [cluster_strokes] at hk
    · simp only [cluster_strokes, h0, if_false] at hk ⊢
      exact getD_map_lt _ _ _ hk _ _
  · intro boxes indices
    exact ⟨merge_clusters_x boxes indices, merge_clusters_y boxes indices,
      merge_clusters_right boxes indices,
      merge_clusters_bottom boxes indices⟩
  · intro boxes is js h
    exact merge_clusters_perm boxes h
  · intro boxes is js hi hj
    exact merge_clusters_append boxes is js hi hj
  · intro a b c
    exact boxUnion_assoc a b c

/-- C4 witness: the theorem applied at a one-stroke input (`k = 0` with the
single cluster `[0]`), a two-element permutation, and a concrete
concatenation. -/
theorem c4_symbol_boxes_witness :
    ((cluster_strokes [originStroke]
        (2 / 100) (3 / 100) (6 / 10) 2 25).2.1).getD 0 default =
      merge_clusters ((cluster_strokes [originStroke]
          (2 / 100) (3 / 100) (6 / 10) 2 25).2.2)
        (((cluster_strokes [originStroke]
          (2 / 100) (3 / 100) (6 / 10) 2 25).1).getD 0 []) ∧
    merge_clusters [⟨0, 0, 1, 1⟩, ⟨2, 2, 1, 1⟩] [0, 1] =
      merge_clusters [⟨0, 0, 1, 1⟩, ⟨2, 2, 1, 1⟩] [1, 0] ∧
    merge_clusters [⟨0, 0, 1, 1⟩, ⟨2, 2, 1, 1⟩] ([0] ++ [1]) =
      boxUnion (merge_clusters [⟨0, 0, 1, 1⟩, ⟨2, 2, 1, 1⟩] [0])
        (merge_clusters [⟨0, 0, 1, 1⟩, ⟨2, 2, 1, 1⟩] [1]) := by
  refine ⟨c4_symbol_boxes.1 [originStroke] _ _ _ _ _ 0 ?_,
    c4_symbol_boxes.2.2.1 _ _ _ (List.Perm.swap 1 0 []),
    c4_symbol_boxes.2.2.2.1 _ _ _ (by simp) (by simp)⟩
  norm_num [cluster_strokes, originStroke, mkPt, stroke_to_box,
    collect_point, listMin, listMax, stroke_time_window, sortByKey,
    insertByKey, buildAdjAux, scanFrom, components, compStep, dfsLoop,
    pushAll, appendAt, List.range_succ]

/-- C5: when both strokes carry a `sequenceIndex` and the indices differ
by more than `seq_window`, `should_merge_strokes` returns `false`
regardless of the boxes, endpoints, thresholds and time windows: the
sequence-order gate takes priority over the spatial merge conditions. -/
theorem c5_sequence_gate (a b : Stroke) (a_box b_box : Box)
    (gt et tw : ℚ) (sw : ℤ) (ta tb : ℚ × ℚ) (sa sb : ℤ)
    (ha : a.sequenceIndex = some sa) (hb : b.sequenceIndex = some sb)
    (hgap : sw < |sa - sb|) :
    should_merge_strokes a b a_box b_box gt et tw sw ta tb = false := by
  unfold should_merge_strokes
  rw [ha, hb]
  simp [hgap]

/-- C5 witness: two strokes with coincident endpoints and touching
degenerate boxes, sequence indices `0` and `5` with `seq_window = 2` —
rejected. -/
theorem c5_sequence_gate_witness :
    should_merge_strokes ⟨[mkPt 0 0], none, none, some 0⟩
      ⟨[mkPt 0 0], none, none, some 5⟩ ⟨0, 0, 0, 0⟩ ⟨0, 0, 0, 0⟩
      (2 / 100) (3 / 100) (6 / 10) 2 (0, 0) (0, 0) = false :=
  c5_sequence_gate _ _ _ _ _ _ _ _ _ _ 0 5 rfl rfl (by decide)

/-- C6 counterexample: the degenerate box `{0,0,0,0}` is identical to
itself, yet its IoU with itself is `0`, not `1`: the union area is `0`, so
the `union ≤ 0` guard fires. -/
theorem c6_counterexample :
    intersection_over_union ⟨0, 0, 0, 0⟩ ⟨0, 0, 0, 0⟩ = 0 ∧
      intersection_over_union ⟨0, 0, 0, 0⟩ ⟨0, 0, 0, 0⟩ ≠ 1 := by
  constructor <;>
    · rw [iou_eq]
      norm_num [union_area, inter_area, Box.right, Box.bottom]

/-- C6 (amended): `intersection_over_union` computes
`inter = max(0, minRight-maxLeft) * max(0, minBottom-maxTop)` and returns
`inter / (areaA + areaB - inter)`, returning `0.0` whenever the union area
is `≤ 0`; every pair of boxes with zero intersection area has IoU `0.0`,
and every pair of identical boxes with positive width and height has IoU
`1.0` (identical degenerate boxes fall under the union-`≤ 0` guard and
yield `0.0`). -/
theorem c6_iou_boundary :
    (∀ a b : Box, intersection_over_union a b =
        if union_area a b ≤ 0 then 0
        else inter_area a b / union_area a b) ∧
    (∀ a b : Box, inter_area a b = 0 →
        intersection_over_union a b = 0) ∧
    (∀ a : Box, 0 < a.w → 0 < a.h →
        intersection_over_union a a = 1) := by
  refine ⟨fun a b => iou_eq a b, ?_, ?_⟩
  · intro a b h
    rw [iou_eq, h]
    split <;> simp
  · intro a hw hh
    have hia : inter_area a a = a.w * a.h := by
      rw [inter_area_self, max_eq_right hw.le, max_eq_right hh.le]
    have hu : union_area a a = a.w * a.h := by
      unfold union_area
      rw [hia]
      ring
    have hpos : 0 < a.w * a.h := mul_pos hw hh
    rw [iou_eq, hu, hia, if_neg (not_le.mpr hpos)]
    exact div_self (ne_of_gt hpos)

/-- C6 witness: disjoint boxes give IoU `0`; an identical positive box
gives IoU `1`. -/
theorem c6_iou_boundary_witness :
    intersection_over_union ⟨0, 0, 5, 5⟩ ⟨10, 10, 2, 2⟩ = 0 ∧
      intersection_over_union ⟨1, 2, 3, 4⟩ ⟨1, 2, 3, 4⟩ = 1 := by
  refine ⟨c6_iou_boundary.2.1 _ _ ?_, c6_iou_boundary.2.2 _ ?_ ?_⟩
  · norm_num [inter_area, Box.right, Box.bottom]
  · norm_num
  · norm_num

/-- C7 counterexample: in the stroke whose first point has a parseable `x`
(10) but a malformed `y`, the code still appends 10 to the `x` list, so its
box is `{0,0,10,0}`, while the claim's "skip any point that fails to parse
as two floats" semantics gives `{0,0,0,0}`. -/
theorem c7_counterexample :
    stroke_to_box halfParsedStroke ≠ spec_stroke_to_box halfParsedStroke := by
  have h1 : stroke_to_box halfParsedStroke = ⟨0, 0, 10, 0⟩ := by
    norm_num [stroke_to_box, halfParsedStroke, mkPt, collect_point,
      listMin, listMax, List.cons_ne_nil]
  have h2 : spec_stroke_to_box halfParsedStroke = ⟨0, 0, 0, 0⟩ := by
    norm_num [spec_stroke_to_box, halfParsedStroke, mkPt,
      List.filterMap_cons, listMin, listMax]
  rw [h1, h2]
  intro he
  have := congrArg Box.w he
  norm_num at this

/-- C7 (amended): `stroke_to_box` is total; a point contributes its `x`
whenever its `x` parses (even if its `y` then fails), contributes its `y`
only when both coordinates parse, and is skipped entirely when its `x`
fails; if either collected list is empty the result is the degenerate box
`{0,0,0,0}`, and otherwise `x = min(xs)`, `y = min(ys)`,
`w = max(xs) - min(xs)` and `h = max(ys) - min(ys)`, with `w ≥ 0` and
`h ≥ 0` always. -/
theorem c7_stroke_to_box_total (s : Stroke) :
    stroke_to_box s =
      (if xsOf s.points = [] ∨ ysOf s.points = [] then ⟨0, 0, 0, 0⟩
       else
         ⟨listMin (xsOf s.points), listMin (ysOf s.points),
           listMax (xsOf s.points) - listMin (xsOf s.points),
           listMax (ysOf s.points) - listMin (ysOf s.points)⟩) ∧
    0 ≤ (stroke_to_box s).w ∧ 0 ≤ (stroke_to_box s).h := by
  refine ⟨stroke_to_box_eq s, ?_, ?_⟩ <;>
    · rw [stroke_to_box_eq s]
      by_cases hc : xsOf s.points = [] ∨ ysOf s.points = []
      · simp [hc]
      · push_neg at hc
        rw [if_neg (by simp [hc.1, hc.2])]
        first
        | exact sub_nonneg.mpr (listMin_le_listMax _ hc.1)
        | exact sub_nonneg.mpr (listMin_le_listMax _ hc.2)

/-- C8: `cluster_strokes` is deterministic — it is a pure function of its
input list and configuration, with no randomness or ambient state, so two
invocations on identical input and configuration give identical clusters,
symbol boxes and stroke boxes, order included. -/
theorem c8_determinism (strokes : List Stroke) (gt et tw : ℚ) (sw : ℤ)
    (mfn : ℕ) :
    cluster_strokes strokes gt et tw sw mfn =
      cluster_strokes strokes gt et tw sw mfn := rfl

/-- C9: `cluster_strokes` is total and shape-correct: the empty input
yields `([], [], [])` under every configuration, and every input yields
one stroke box per input stroke and one symbol box per cluster. -/
theorem c9_total_shape :
    (∀ (gt et tw : ℚ) (sw : ℤ) (mfn : ℕ),
      cluster_strokes [] gt et tw sw mfn = ([], [], [])) ∧
    ∀ (strokes : List Stroke) (gt et tw : ℚ) (sw : ℤ) (mfn : ℕ),
      ((cluster_strokes strokes gt et tw sw mfn).2.2).length =
          strokes.length ∧
        ((cluster_strokes strokes gt et tw sw mfn).2.1).length =
          ((cluster_strokes strokes gt et tw sw mfn).1).length := by
  constructor
  · intro gt et tw sw mfn
    rfl
  · intro strokes gt et tw sw mfn
    by_cases h0 : strokes.length = 0
    · have hs : strokes = [] := List.length_eq_zero.mp h0
      subst hs
      simp [cluster_strokes]
    · simp only [cluster_strokes, h0, if_false]
      constructor <;> simp

/-- C10: `should_merge_strokes` is symmetric under swapping the two
strokes together with their boxes and time windows, because the sequence
gate (`|sa - sb|`), the time-gap formula, the box-gap and the endpoint
distance are each symmetric; hence the merge relation is undirected. -/
theorem c10_symmetry (a b : Stroke) (a_box b_box : Box) (gt et tw : ℚ)
    (sw : ℤ) (ta tb : ℚ × ℚ) :
    should_merge_strokes a b a_box b_box gt et tw sw ta tb =
      should_merge_strokes b a b_box a_box gt et tw sw tb ta := by
  unfold should_merge_strokes
  rw [geom_merge_comm a b a_box b_box gt et, time_gap_s_comm ta tb]
  cases hsa : a.sequenceIndex with
  | none =>
    cases hsb : b.sequenceIndex with
    | none => rfl
    | some sb => rfl
  | some sa =>
    cases hsb : b.sequenceIndex with
    | none => rfl
    | some sb =>
      show (if sw < |sa - sb| then false
          else geom_merge b a b_box a_box gt et) =
        if sw < |sb - sa| then false
          else geom_merge b a b_box a_box gt et
      rw [abs_sub_comm]

end Clustering
